import Mathlib

/-!
Verification of the Laplacian mesh-smoothing core of `src/main.py`
(`LaplacianSmoothingApp._laplacian_smooth` and `apply_smoothing`).

The embedding models vertex positions as triples of rationals (the Python
code uses floating-point NumPy arrays; all the algebra here is exact), face
lists in the PyVista flat format `[n, i1, ..., in, n, ...]`, and the
`KeyError` the Python dictionary `adj` raises on an out-of-range vertex
index as an `Except.error`.
-/

/-- Positions are 3D vectors; components are exact rationals standing for the
floating-point coordinates of the NumPy arrays. -/
structure Vec3 where
  x : ℚ
  y : ℚ
  z : ℚ
deriving DecidableEq, Repr

def origin : Vec3 := ⟨0, 0, 0⟩

def vadd (a b : Vec3) : Vec3 := ⟨a.x + b.x, a.y + b.y, a.z + b.z⟩

def vsub (a b : Vec3) : Vec3 := ⟨a.x - b.x, a.y - b.y, a.z - b.z⟩

def vsmul (c : ℚ) (a : Vec3) : Vec3 := ⟨c * a.x, c * a.y, c * a.z⟩

def vsum (l : List Vec3) : Vec3 := l.foldr vadd origin

/-- Componentwise arithmetic mean, as `np.mean(..., axis=0)` computes it. -/
def vmean (l : List Vec3) : Vec3 := vsmul (1 / (l.length : ℚ)) (vsum l)

/-- Helper for `parseFaces`: the loop of lines 263-267 advances `i` by
`1 + n ≥ 1` each pass, so it runs at most `len(arr)` times; the first
argument is that fuel bound, making the recursion structural. -/
def parseFacesAux : ℕ → List ℕ → List (List ℕ)
  | _, [] => []
  | 0, _ :: _ => []
  | Nat.succ fuel, n :: rest => rest.take n :: parseFacesAux fuel (rest.drop n)

/-- Lines 261-267 of `main.py`: decode the PyVista flat face array
`[n, i1, ..., in, n, ...]` into a list of faces. -/
def parseFaces (arr : List ℕ) : List (List ℕ) := parseFacesAux arr.length arr

/-- Normalize an edge by sorting its endpoints, as `tuple(sorted((v1, v2)))`
does on line 281. -/
def normEdge (a b : ℕ) : ℕ × ℕ := if a ≤ b then (a, b) else (b, a)

/-- Lines 276-282: the normalized non-degenerate edges contributed by one
face, one per consecutive (wrapping) vertex pair; self-edges are skipped. -/
def faceEdges (face : List ℕ) : List (ℕ × ℕ) :=
  (List.range face.length).filterMap fun j =>
    let v1 := face.getD j 0
    let v2 := face.getD ((j + 1) % face.length) 0
    if v1 = v2 then none else some (normEdge v1 v2)

/-- All edge occurrences across all faces (with multiplicity), i.e. the
stream of increments received by `edge_count` on line 282. -/
def allEdges (faces : List (List ℕ)) : List (ℕ × ℕ) := faces.flatMap faceEdges

/-- Multiplicity of a normalized edge, i.e. `edge_count[e]`. -/
def edgeMult (faces : List (List ℕ)) (e : ℕ × ℕ) : ℕ := (allEdges faces).count e

/-- The distinct keys of the `edge_count` dictionary. -/
def edgeKeys (faces : List (List ℕ)) : List (ℕ × ℕ) := (allEdges faces).dedup

/-- Line 288 of `main.py`: `boundary_verts` membership — the vertex is an
endpoint of some edge whose accumulated count is exactly 1. -/
def isBoundary (faces : List (List ℕ)) (u : ℕ) : Bool :=
  (edgeKeys faces).any fun e =>
    decide (edgeMult faces e = 1) && (decide (u = e.1) || decide (u = e.2))

/-- Lines 283-286: the neighbor set `adj[u]`, collected from the endpoints of
every distinct edge incident to `u` (Python set semantics: deduplicated). -/
def nbrs (faces : List (List ℕ)) (u : ℕ) : List ℕ :=
  ((edgeKeys faces).filterMap fun e =>
    if e.1 = u then some e.2 else if e.2 = u then some e.1 else none).dedup

/-- Lines 283-285 index `adj[u]` and `adj[v]` for every counted edge `(u,v)`;
`adj` has keys `range(N)`, so an endpoint outside `[0, N)` raises `KeyError`.
This predicate is true exactly when no such endpoint exists. -/
def connectivityOk (N : ℕ) (faces : List (List ℕ)) : Bool :=
  (edgeKeys faces).all fun e => decide (e.1 < N) && decide (e.2 < N)

/-- Line 294 of `main.py`: the skip condition of the vertex loop —
`idx in boundary_verts or len(adj[idx]) == 0`. -/
def skipped (faces : List (List ℕ)) (idx : ℕ) : Bool :=
  isBoundary faces idx || (nbrs faces idx).isEmpty

/-- Lines 296-299: the new position of a relaxed vertex — move from its
previous position toward the mean of its neighbors' previous positions,
scaled by `lambd`. -/
def newPos (lambd : ℚ) (prev : List Vec3) (nbrIdx : List ℕ) (idx : ℕ) : Vec3 :=
  let old := prev.getD idx origin
  let avg := vmean (nbrIdx.map fun j => prev.getD j origin)
  vadd old (vsmul lambd (vsub avg old))

/-- Lines 293-299: one step of the inner vertex loop — skip boundary and
isolated vertices, otherwise write `newPos` (computed from the snapshot
`prev`) into the working copy `temp` at `idx`. -/
def updateAt (faces : List (List ℕ)) (lambd : ℚ) (prev temp : List Vec3)
    (idx : ℕ) : List Vec3 :=
  if skipped faces idx then temp
  else temp.set idx (newPos lambd prev (nbrs faces idx) idx)

/-- Lines 292-300: one smoothing iteration — `temp = new_pts.copy()`, then the
vertex loop in ascending index order, every read taken from the unmodified
snapshot `prev`. -/
def smoothIterLoop (faces : List (List ℕ)) (lambd : ℚ) (prev : List Vec3) :
    List Vec3 :=
  (List.range prev.length).foldl (updateAt faces lambd prev) prev

/-- Line 291: repeat the iteration `K` times, feeding each result to the
next pass. -/
def smoothIters (faces : List (List ℕ)) (lambd : ℚ) : ℕ → List Vec3 → List Vec3
  | 0, pts => pts
  | Nat.succ k, pts => smoothIterLoop faces lambd (smoothIters faces lambd k pts)

/-- Lines 258-301: the whole `_laplacian_smooth` helper. The Python code
performs no parameter or emptiness validation; the only failure it can
signal is the `KeyError` raised while building `adj` from an edge with an
out-of-range endpoint. -/
def laplacianSmooth (points : List Vec3) (faces_arr : List ℕ) (lambd : ℚ)
    (iterations : ℕ) : Except String (List Vec3) :=
  let faces := parseFaces faces_arr
  if connectivityOk points.length faces then
    Except.ok (smoothIters faces lambd iterations points)
  else
    Except.error "KeyError"

/-- Lines 196-198 of `apply_smoothing`: run `_laplacian_smooth` on the mesh
points and rebuild the result mesh from the new points paired with the
original, untouched face array. -/
def apply_smoothing (points : List Vec3) (faces_arr : List ℕ) (lambd : ℚ)
    (iterations : ℕ) : Except String (List Vec3 × List ℕ) :=
  (laplacianSmooth points faces_arr lambd iterations).map fun np =>
    (np, faces_arr)

/-- Modelled from the spec: the Relaxation Engine iteration as §4.2 words it —
for every index, keep the previous position if the vertex is in the boundary
set or has no neighbors, otherwise set it to
`old_position + λ * (neighbor_mean − old_position)` with the mean taken over
the previous iteration's array. Being a pointwise map over the previous
array, it is manifestly independent of vertex-processing order. -/
def relaxationStepSpec (faces : List (List ℕ)) (lambd : ℚ)
    (prev : List Vec3) : List Vec3 :=
  (List.range prev.length).map fun idx =>
    if skipped faces idx then prev.getD idx origin
    else
      let old := prev.getD idx origin
      let m := vmean ((nbrs faces idx).map fun j => prev.getD j origin)
      vadd old (vsmul lambd (vsub m old))

/-- Axis-aligned box membership: each coordinate of `p` lies in the closed
interval given by the corresponding coordinates of `lo` and `hi`. -/
def inBox (lo hi p : Vec3) : Prop :=
  lo.x ≤ p.x ∧ p.x ≤ hi.x ∧ lo.y ≤ p.y ∧ p.y ≤ hi.y ∧ lo.z ≤ p.z ∧ p.z ≤ hi.z

instance {ε α : Type} [DecidableEq ε] [DecidableEq α] :
    DecidableEq (Except ε α) := fun a b =>
  match a, b with
  | .error e, .error f => decidable_of_iff (e = f) (by simp)
  | .ok x, .ok y => decidable_of_iff (x = y) (by simp)
  | .error _, .ok _ => isFalse fun h => Except.noConfusion h
  | .ok _, .error _ => isFalse fun h => Except.noConfusion h

instance (lo hi p : Vec3) : Decidable (inBox lo hi p) :=
  inferInstanceAs (Decidable (lo.x ≤ p.x ∧ p.x ≤ hi.x ∧ lo.y ≤ p.y ∧
    p.y ≤ hi.y ∧ lo.z ≤ p.z ∧ p.z ≤ hi.z))

/-- Concrete mesh: one triangle (all three edges have multiplicity 1, so all
three vertices are boundary). -/
def triPts : List Vec3 := [⟨0, 0, 0⟩, ⟨1, 0, 0⟩, ⟨0, 1, 0⟩]

def triFacesArr : List ℕ := [3, 0, 1, 2]

/-- Concrete mesh: a tetrahedron — 4 vertices, 4 triangular faces, every edge
shared by exactly 2 faces, hence closed with empty boundary set. -/
def tetraPts : List Vec3 := [⟨0, 0, 0⟩, ⟨1, 0, 0⟩, ⟨0, 1, 0⟩, ⟨0, 0, 1⟩]

def tetraFacesArr : List ℕ := [3, 0, 1, 2, 3, 0, 3, 1, 3, 0, 2, 3, 3, 1, 3, 2]

/-! ## Structural lemmas about the vertex loop -/

theorem length_updateAt (faces : List (List ℕ)) (lambd : ℚ) (prev temp : List Vec3)
    (idx : ℕ) : (updateAt faces lambd prev temp idx).length = temp.length := by
  unfold updateAt
  split
  · rfl
  · exact List.length_set ..

theorem updateAt_getElem?_ne (faces : List (List ℕ)) (lambd : ℚ)
    (prev temp : List Vec3) {a j : ℕ} (h : a ≠ j) :
    (updateAt faces lambd prev temp a)[j]? = temp[j]? := by
  unfold updateAt
  split
  · rfl
  · exact List.getElem?_set_ne h

theorem foldl_updateAt_getElem? (faces : List (List ℕ)) (lambd : ℚ)
    (prev : List Vec3) (l : List ℕ) (temp : List Vec3) (j : ℕ) :
    (l.foldl (updateAt faces lambd prev) temp)[j]? =
      if j ∈ l ∧ skipped faces j = false
      then (temp.set j (newPos lambd prev (nbrs faces j) j))[j]?
      else temp[j]? := by
  induction l generalizing temp with
  | nil => simp
  | cons a l ih =>
    rw [List.foldl_cons, ih]
    by_cases hsk : skipped faces j = true
    · rw [if_neg (by simp [hsk]), if_neg (by simp [hsk])]
      by_cases haj : a = j
      · subst haj
        rw [updateAt, if_pos hsk]
      · exact updateAt_getElem?_ne faces lambd prev temp haj
    · rw [Bool.not_eq_true] at hsk
      by_cases hjl : j ∈ l
      · rw [if_pos ⟨hjl, hsk⟩, if_pos ⟨List.mem_cons_of_mem a hjl, hsk⟩,
            List.getElem?_set, List.getElem?_set, length_updateAt]
        simp
      · rw [if_neg (by simp [hjl])]
        by_cases haj : a = j
        · subst haj
          rw [if_pos ⟨List.mem_cons_self a l, hsk⟩, updateAt,
              if_neg (by simp [hsk])]
        · rw [if_neg (by simp [List.mem_cons, hjl, Ne.symm haj]),
              updateAt_getElem?_ne faces lambd prev temp haj]

theorem length_foldl_updateAt (faces : List (List ℕ)) (lambd : ℚ)
    (prev : List Vec3) (l : List ℕ) (temp : List Vec3) :
    (l.foldl (updateAt faces lambd prev) temp).length = temp.length := by
  induction l generalizing temp with
  | nil => rfl
  | cons a l ih => rw [List.foldl_cons, ih, length_updateAt]

theorem length_relaxationStepSpec (faces : List (List ℕ)) (lambd : ℚ)
    (prev : List Vec3) :
    (relaxationStepSpec faces lambd prev).length = prev.length := by
  simp [relaxationStepSpec]

theorem relaxationStepSpec_getElem? (faces : List (List ℕ)) (lambd : ℚ)
    (prev : List Vec3) (j : ℕ) :
    (relaxationStepSpec faces lambd prev)[j]? =
      if j < prev.length then
        some (if skipped faces j then prev.getD j origin
              else newPos lambd prev (nbrs faces j) j)
      else none := by
  unfold relaxationStepSpec
  rw [List.getElem?_map]
  by_cases hj : j < prev.length
  · rw [List.getElem?_range hj, if_pos hj]
    simp only [Option.map_some']
    rfl
  · rw [if_neg hj, List.getElem?_eq_none (by simpa using Nat.le_of_not_lt hj)]
    rfl

theorem foldl_updateAt_eq_spec (faces : List (List ℕ)) (lambd : ℚ)
    (prev : List Vec3) (l : List ℕ) (hl : ∀ j, j < prev.length → j ∈ l) :
    l.foldl (updateAt faces lambd prev) prev =
      relaxationStepSpec faces lambd prev := by
  apply List.ext_getElem?
  intro j
  rw [foldl_updateAt_getElem?, relaxationStepSpec_getElem?]
  by_cases hj : j < prev.length
  · rw [if_pos hj]
    by_cases hsk : skipped faces j = true
    · rw [if_neg (by simp [hsk]), if_pos hsk, List.getElem?_eq_getElem hj]
      simp [List.getElem?_eq_getElem hj]
    · rw [Bool.not_eq_true] at hsk
      rw [if_pos ⟨hl j hj, hsk⟩, if_neg (by simp [hsk]),
          List.getElem?_set_self hj]
  · rw [if_neg hj]
    have hn : prev[j]? = none := List.getElem?_eq_none (Nat.le_of_not_lt hj)
    split
    · rw [List.getElem?_set]
      simp [hj]
    · exact hn

theorem smoothIterLoop_eq_spec (faces : List (List ℕ)) (lambd : ℚ)
    (prev : List Vec3) :
    smoothIterLoop faces lambd prev = relaxationStepSpec faces lambd prev :=
  foldl_updateAt_eq_spec faces lambd prev _ (fun j hj => List.mem_range.mpr hj)

/-! ## Iteration-level lemmas -/

theorem range_map_getD {α : Type} (l : List α) (d : α) :
    (List.range l.length).map (fun i => l.getD i d) = l := by
  apply List.ext_getElem?
  intro j
  rw [List.getElem?_map]
  by_cases hj : j < l.length
  · rw [List.getElem?_range hj, Option.map_some', List.getD_eq_getElem?_getD,
        List.getElem?_eq_getElem hj]
    rfl
  · rw [List.getElem?_eq_none (l := List.range l.length)
        (by simpa using Nat.le_of_not_lt hj),
        List.getElem?_eq_none (Nat.le_of_not_lt hj)]
    rfl

theorem length_smoothIterLoop (faces : List (List ℕ)) (lambd : ℚ)
    (prev : List Vec3) : (smoothIterLoop faces lambd prev).length = prev.length :=
  length_foldl_updateAt faces lambd prev _ prev

theorem length_smoothIters (faces : List (List ℕ)) (lambd : ℚ) (K : ℕ)
    (pts : List Vec3) : (smoothIters faces lambd K pts).length = pts.length := by
  induction K with
  | zero => rfl
  | succ k ih =>
    show (smoothIterLoop faces lambd (smoothIters faces lambd k pts)).length = _
    rw [length_smoothIterLoop, ih]

theorem smoothIterLoop_getD_skipped (faces : List (List ℕ)) (lambd : ℚ)
    (prev : List Vec3) (idx : ℕ) (d : Vec3) (hsk : skipped faces idx = true) :
    (smoothIterLoop faces lambd prev).getD idx d = prev.getD idx d := by
  rw [smoothIterLoop_eq_spec, List.getD_eq_getElem?_getD,
      relaxationStepSpec_getElem?]
  by_cases hj : idx < prev.length
  · rw [if_pos hj, if_pos hsk]
    simp [List.getD_eq_getElem?_getD, List.getElem?_eq_getElem hj]
  · rw [if_neg hj, List.getD_eq_getElem?_getD,
        List.getElem?_eq_none (Nat.le_of_not_lt hj)]

theorem smoothIters_getD_skipped (faces : List (List ℕ)) (lambd : ℚ) (K : ℕ)
    (pts : List Vec3) (idx : ℕ) (d : Vec3) (hsk : skipped faces idx = true) :
    (smoothIters faces lambd K pts).getD idx d = pts.getD idx d := by
  induction K with
  | zero => rfl
  | succ k ih =>
    show (smoothIterLoop faces lambd (smoothIters faces lambd k pts)).getD idx d = _
    rw [smoothIterLoop_getD_skipped faces lambd _ idx d hsk, ih]

/-! ## Pointwise algebra of the update formula -/

theorem vadd_vsmul_zero (a b : Vec3) : vadd a (vsmul 0 b) = a := by
  cases a
  cases b
  simp only [vadd, vsmul, Vec3.mk.injEq]
  refine ⟨by ring, by ring, by ring⟩

theorem vadd_vsmul_one (a b : Vec3) : vadd a (vsmul 1 (vsub b a)) = b := by
  cases a
  cases b
  simp only [vadd, vsmul, vsub, Vec3.mk.injEq]
  refine ⟨by ring, by ring, by ring⟩

theorem newPos_lambda_zero (prev : List Vec3) (nbrIdx : List ℕ) (idx : ℕ) :
    newPos 0 prev nbrIdx idx = prev.getD idx origin :=
  vadd_vsmul_zero _ _

theorem newPos_lambda_one (prev : List Vec3) (nbrIdx : List ℕ) (idx : ℕ) :
    newPos 1 prev nbrIdx idx = vmean (nbrIdx.map fun j => prev.getD j origin) :=
  vadd_vsmul_one _ _

/-! ## Identity cases: factor zero and empty face list -/

theorem relaxationStepSpec_lambda_zero (faces : List (List ℕ))
    (prev : List Vec3) : relaxationStepSpec faces 0 prev = prev := by
  unfold relaxationStepSpec
  conv_rhs => rw [← range_map_getD prev origin]
  exact List.map_congr_left fun idx _ => by
    split
    · rfl
    · exact vadd_vsmul_zero _ _

theorem smoothIters_lambda_zero (faces : List (List ℕ)) (K : ℕ)
    (pts : List Vec3) : smoothIters faces 0 K pts = pts := by
  induction K with
  | zero => rfl
  | succ k ih =>
    show smoothIterLoop faces 0 (smoothIters faces 0 k pts) = pts
    rw [ih, smoothIterLoop_eq_spec, relaxationStepSpec_lambda_zero]

theorem skipped_nil (u : ℕ) : skipped [] u = true := rfl

theorem relaxationStepSpec_nil (lambd : ℚ) (prev : List Vec3) :
    relaxationStepSpec [] lambd prev = prev := by
  unfold relaxationStepSpec
  conv_rhs => rw [← range_map_getD prev origin]
  exact List.map_congr_left fun idx _ => by rw [if_pos (skipped_nil idx)]

theorem smoothIters_nil (lambd : ℚ) (K : ℕ) (pts : List Vec3) :
    smoothIters [] lambd K pts = pts := by
  induction K with
  | zero => rfl
  | succ k ih =>
    show smoothIterLoop [] lambd (smoothIters [] lambd k pts) = pts
    rw [ih, smoothIterLoop_eq_spec, relaxationStepSpec_nil]

/-! ## Bounding-box invariance machinery -/

theorem vsum_comp_le (f : Vec3 → ℚ) (hadd : ∀ a b, f (vadd a b) = f a + f b)
    (h0 : f origin = 0) (c : ℚ) (l : List Vec3) (h : ∀ p ∈ l, f p ≤ c) :
    f (vsum l) ≤ c * l.length := by
  induction l with
  | nil => simp [vsum, h0]
  | cons p l ih =>
    have hp : f p ≤ c := h p (List.mem_cons_self p l)
    have hl : f (vsum l) ≤ c * l.length :=
      ih fun q hq => h q (List.mem_cons_of_mem p hq)
    show f (vadd p (vsum l)) ≤ _
    rw [hadd]
    push_cast [List.length_cons]
    linarith

theorem vsum_comp_ge (f : Vec3 → ℚ) (hadd : ∀ a b, f (vadd a b) = f a + f b)
    (h0 : f origin = 0) (c : ℚ) (l : List Vec3) (h : ∀ p ∈ l, c ≤ f p) :
    c * l.length ≤ f (vsum l) := by
  induction l with
  | nil => simp [vsum, h0]
  | cons p l ih =>
    have hp : c ≤ f p := h p (List.mem_cons_self p l)
    have hl : c * l.length ≤ f (vsum l) :=
      ih fun q hq => h q (List.mem_cons_of_mem p hq)
    show _ ≤ f (vadd p (vsum l))
    rw [hadd]
    push_cast [List.length_cons]
    linarith

theorem vmean_comp_le (f : Vec3 → ℚ) (hadd : ∀ a b, f (vadd a b) = f a + f b)
    (h0 : f origin = 0) (hsmul : ∀ c v, f (vsmul c v) = c * f v) (c : ℚ)
    (l : List Vec3) (hne : l ≠ []) (h : ∀ p ∈ l, f p ≤ c) : f (vmean l) ≤ c := by
  have hn : (0 : ℚ) < l.length := by
    exact_mod_cast List.length_pos.mpr hne
  have hs := vsum_comp_le f hadd h0 c l h
  rw [vmean, hsmul, one_div_mul_eq_div]
  rw [div_le_iff hn]
  linarith

theorem vmean_comp_ge (f : Vec3 → ℚ) (hadd : ∀ a b, f (vadd a b) = f a + f b)
    (h0 : f origin = 0) (hsmul : ∀ c v, f (vsmul c v) = c * f v) (c : ℚ)
    (l : List Vec3) (hne : l ≠ []) (h : ∀ p ∈ l, c ≤ f p) : c ≤ f (vmean l) := by
  have hn : (0 : ℚ) < l.length := by
    exact_mod_cast List.length_pos.mpr hne
  have hs := vsum_comp_ge f hadd h0 c l h
  rw [vmean, hsmul, one_div_mul_eq_div]
  rw [le_div_iff hn]
  linarith

theorem vmean_inBox (lo hi : Vec3) (l : List Vec3) (hne : l ≠ [])
    (h : ∀ p ∈ l, inBox lo hi p) : inBox lo hi (vmean l) := by
  refine ⟨?_, ?_, ?_, ?_, ?_, ?_⟩
  · exact vmean_comp_ge (fun v => v.x) (fun a b => rfl) rfl (fun c v => rfl)
      lo.x l hne fun p hp => (h p hp).1
  · exact vmean_comp_le (fun v => v.x) (fun a b => rfl) rfl (fun c v => rfl)
      hi.x l hne fun p hp => (h p hp).2.1
  · exact vmean_comp_ge (fun v => v.y) (fun a b => rfl) rfl (fun c v => rfl)
      lo.y l hne fun p hp => (h p hp).2.2.1
  · exact vmean_comp_le (fun v => v.y) (fun a b => rfl) rfl (fun c v => rfl)
      hi.y l hne fun p hp => (h p hp).2.2.2.1
  · exact vmean_comp_ge (fun v => v.z) (fun a b => rfl) rfl (fun c v => rfl)
      lo.z l hne fun p hp => (h p hp).2.2.2.2.1
  · exact vmean_comp_le (fun v => v.z) (fun a b => rfl) rfl (fun c v => rfl)
      hi.z l hne fun p hp => (h p hp).2.2.2.2.2

theorem newPos_inBox (lo hi : Vec3) (lambd : ℚ) (h0 : 0 ≤ lambd)
    (h1 : lambd ≤ 1) (old avg : Vec3) (ho : inBox lo hi old)
    (ha : inBox lo hi avg) :
    inBox lo hi (vadd old (vsmul lambd (vsub avg old))) := by
  obtain ⟨o1, o2, o3, o4, o5, o6⟩ := ho
  obtain ⟨a1, a2, a3, a4, a5, a6⟩ := ha
  simp only [inBox, vadd, vsmul, vsub]
  refine ⟨?_, ?_, ?_, ?_, ?_, ?_⟩ <;> nlinarith

theorem getD_mem_of_lt {α : Type} (l : List α) (idx : ℕ) (d : α)
    (h : idx < l.length) : l.getD idx d ∈ l := by
  rw [List.getD_eq_getElem?_getD, List.getElem?_eq_getElem h]
  exact List.getElem_mem h

theorem nbrs_lt_of_connectivityOk (N : ℕ) (faces : List (List ℕ))
    (hok : connectivityOk N faces = true) (u j : ℕ) (hj : j ∈ nbrs faces u) :
    j < N := by
  unfold connectivityOk at hok
  rw [List.all_eq_true] at hok
  unfold nbrs at hj
  rw [List.mem_dedup, List.mem_filterMap] at hj
  obtain ⟨e, he, heq⟩ := hj
  have hb := hok e he
  simp only [Bool.and_eq_true, decide_eq_true_eq] at hb
  by_cases h1 : e.1 = u
  · rw [if_pos h1] at heq
    obtain rfl := Option.some.inj heq
    exact hb.2
  · rw [if_neg h1] at heq
    by_cases h2 : e.2 = u
    · rw [if_pos h2] at heq
      obtain rfl := Option.some.inj heq
      exact hb.1
    · rw [if_neg h2] at heq
      exact absurd heq (by simp)

theorem relaxationStepSpec_inBox (faces : List (List ℕ)) (lambd : ℚ)
    (lo hi : Vec3) (prev : List Vec3) (h0 : 0 ≤ lambd) (h1 : lambd ≤ 1)
    (hok : connectivityOk prev.length faces = true)
    (hin : ∀ p ∈ prev, inBox lo hi p) :
    ∀ p ∈ relaxationStepSpec faces lambd prev, inBox lo hi p := by
  intro p hp
  unfold relaxationStepSpec at hp
  rw [List.mem_map] at hp
  obtain ⟨idx, hidx, rfl⟩ := hp
  rw [List.mem_range] at hidx
  split
  · exact hin _ (getD_mem_of_lt prev idx origin hidx)
  · rename_i hsk
    have hne : nbrs faces idx ≠ [] := by
      rw [Bool.not_eq_true] at hsk
      unfold skipped at hsk
      rw [Bool.or_eq_false_iff] at hsk
      have h2 := hsk.2
      rwa [List.isEmpty_eq_false] at h2
    apply newPos_inBox lo hi lambd h0 h1
    · exact hin _ (getD_mem_of_lt prev idx origin hidx)
    · apply vmean_inBox lo hi _ (by simpa using hne)
      intro q hq
      rw [List.mem_map] at hq
      obtain ⟨j, hjmem, rfl⟩ := hq
      exact hin _ (getD_mem_of_lt prev j origin
        (nbrs_lt_of_connectivityOk prev.length faces hok idx j hjmem))

theorem smoothIters_inBox (faces : List (List ℕ)) (lambd : ℚ) (K : ℕ)
    (pts : List Vec3) (lo hi : Vec3) (h0 : 0 ≤ lambd) (h1 : lambd ≤ 1)
    (hok : connectivityOk pts.length faces = true)
    (hin : ∀ p ∈ pts, inBox lo hi p) :
    ∀ p ∈ smoothIters faces lambd K pts, inBox lo hi p := by
  induction K with
  | zero => exact hin
  | succ k ih =>
    show ∀ p ∈ smoothIterLoop faces lambd (smoothIters faces lambd k pts), _
    rw [smoothIterLoop_eq_spec]
    apply relaxationStepSpec_inBox faces lambd lo hi _ h0 h1
    · rw [length_smoothIters]
      exact hok
    · exact ih

/-! ## Shape of laplacianSmooth results -/

theorem laplacianSmooth_ok_iff (pts : List Vec3) (fa : List ℕ) (lambd : ℚ)
    (K : ℕ) (out : List Vec3) :
    laplacianSmooth pts fa lambd K = Except.ok out ↔
      connectivityOk pts.length (parseFaces fa) = true ∧
        out = smoothIters (parseFaces fa) lambd K pts := by
  simp only [laplacianSmooth]
  by_cases hok : connectivityOk pts.length (parseFaces fa) = true
  · rw [if_pos hok]
    constructor
    · intro h
      exact ⟨hok, (Except.ok.inj h).symm⟩
    · intro h
      rw [h.2]
  · rw [if_neg hok]
    constructor
    · intro h
      exact absurd h (by simp)
    · intro h
      exact absurd h.1 hok

/-! ## Claim theorems -/

/-- C1: every Relaxation Engine iteration performs the Jacobi-style update:
the source's ascending-index vertex loop (and the same loop run over any
other processing order `l` covering all indices) equals the pointwise map
`relaxationStepSpec`, which sets each non-boundary vertex with neighbors to
`old + λ * (neighbor_mean − old)` with every read taken from the previous
iteration's array, so the result is independent of vertex-processing
order. -/
theorem jacobi_iteration_order_independent (faces : List (List ℕ))
    (lambd : ℚ) (prev : List Vec3) (l : List ℕ)
    (hl : ∀ j, j < prev.length → j ∈ l) :
    smoothIterLoop faces lambd prev = relaxationStepSpec faces lambd prev ∧
    l.foldl (updateAt faces lambd prev) prev =
      relaxationStepSpec faces lambd prev :=
  ⟨smoothIterLoop_eq_spec faces lambd prev,
   foldl_updateAt_eq_spec faces lambd prev l hl⟩

/-- Witness for C1: the tetrahedron iterated in the source's order and in
reversed order, both equal to the specification map. -/
theorem jacobi_iteration_order_independent_witness :
    smoothIterLoop (parseFaces tetraFacesArr) (1/2) tetraPts =
      relaxationStepSpec (parseFaces tetraFacesArr) (1/2) tetraPts ∧
    [3, 2, 1, 0].foldl
        (updateAt (parseFaces tetraFacesArr) (1/2) tetraPts) tetraPts =
      relaxationStepSpec (parseFaces tetraFacesArr) (1/2) tetraPts :=
  jacobi_iteration_order_independent (parseFaces tetraFacesArr) (1/2)
    tetraPts [3, 2, 1, 0] (by decide)

/-- C2: a vertex in the boundary set, or one with an empty neighbor set,
keeps its input position in the engine's result after any number of
iterations, for any λ, and in the `Except.ok` output of the full
`_laplacian_smooth` call. -/
theorem boundary_and_isolated_vertices_fixed (pts : List Vec3) (fa : List ℕ)
    (lambd : ℚ) (K idx : ℕ) (d : Vec3)
    (h : isBoundary (parseFaces fa) idx = true ∨ nbrs (parseFaces fa) idx = []) :
    (smoothIters (parseFaces fa) lambd K pts).getD idx d = pts.getD idx d ∧
    ∀ out, laplacianSmooth pts fa lambd K = Except.ok out →
      out.getD idx d = pts.getD idx d := by
  have hsk : skipped (parseFaces fa) idx = true := by
    unfold skipped
    rcases h with h | h
    · rw [h, Bool.true_or]
    · rw [h]
      simp
  refine ⟨smoothIters_getD_skipped _ lambd K pts idx d hsk, ?_⟩
  intro out hout
  obtain ⟨-, rfl⟩ := (laplacianSmooth_ok_iff pts fa lambd K out).mp hout
  exact smoothIters_getD_skipped _ lambd K pts idx d hsk

/-- Witness for C2: vertex 0 of the triangle (all of whose vertices are
boundary) is unchanged by two iterations at λ = 1/2. -/
theorem boundary_and_isolated_vertices_fixed_witness :
    (smoothIters (parseFaces triFacesArr) (1/2) 2 triPts).getD 0 origin =
      triPts.getD 0 origin :=
  (boundary_and_isolated_vertices_fixed triPts triFacesArr (1/2) 2 0 origin
    (Or.inl (by decide))).1

/-- C3: the boundary set built on line 288 contains exactly the vertex
indices incident to a normalized edge of accumulated multiplicity exactly 1;
consequently a closed mesh (every edge of multiplicity 2) has an empty
boundary set, leaving every vertex eligible for relaxation. -/
theorem boundary_set_characterization (faces : List (List ℕ)) :
    (∀ u, isBoundary faces u = true ↔
        ∃ e ∈ allEdges faces, edgeMult faces e = 1 ∧ (u = e.1 ∨ u = e.2)) ∧
    ((∀ e ∈ allEdges faces, edgeMult faces e = 2) →
      ∀ u, isBoundary faces u = false) := by
  have hchar : ∀ u, isBoundary faces u = true ↔
      ∃ e ∈ allEdges faces, edgeMult faces e = 1 ∧ (u = e.1 ∨ u = e.2) := by
    intro u
    unfold isBoundary
    rw [List.any_eq_true]
    constructor
    · rintro ⟨e, he, hb⟩
      simp only [Bool.and_eq_true, Bool.or_eq_true, decide_eq_true_eq] at hb
      unfold edgeKeys at he
      exact ⟨e, List.mem_dedup.mp he, hb.1, hb.2⟩
    · rintro ⟨e, he, h1, h2⟩
      refine ⟨e, ?_, ?_⟩
      · unfold edgeKeys
        exact List.mem_dedup.mpr he
      · simp only [Bool.and_eq_true, Bool.or_eq_true, decide_eq_true_eq]
        exact ⟨h1, h2⟩
  refine ⟨hchar, ?_⟩
  intro h2 u
  by_contra hb
  rw [Bool.not_eq_false] at hb
  obtain ⟨e, he, h1, -⟩ := (hchar u).mp hb
  rw [h2 e he] at h1
  exact absurd h1 (by norm_num)

/-- Witness for C3: the tetrahedron is closed (every edge multiplicity 2),
so vertex 0 is not boundary. -/
theorem boundary_set_characterization_witness :
    isBoundary (parseFaces tetraFacesArr) 0 = false :=
  (boundary_set_characterization (parseFaces tetraFacesArr)).2 (by decide) 0

/-- C4 counterexample: with λ = 2 (outside [0,1]) and K = 0, the code raises
no validation error — it returns the input unchanged, the silent identity
result the claim rules out. -/
theorem no_parameter_validation_cex :
    laplacianSmooth triPts triFacesArr 2 0 = Except.ok triPts := by
  with_unfolding_all decide

/-- C4 (amended): `_laplacian_smooth` performs no parameter validation at
all: for any λ whatsoever, K = 0 runs zero iterations and silently returns
the input array, and every iteration count produces an `Except.ok` result
(never a validation error) whenever the connectivity pass succeeds. -/
theorem no_parameter_validation (pts : List Vec3) (fa : List ℕ) (lambd : ℚ)
    (hok : connectivityOk pts.length (parseFaces fa) = true) :
    laplacianSmooth pts fa lambd 0 = Except.ok pts ∧
    ∀ K, ∃ out, laplacianSmooth pts fa lambd K = Except.ok out :=
  ⟨(laplacianSmooth_ok_iff pts fa lambd 0 pts).mpr ⟨hok, rfl⟩,
   fun K => ⟨smoothIters (parseFaces fa) lambd K pts,
     (laplacianSmooth_ok_iff pts fa lambd K _).mpr ⟨hok, rfl⟩⟩⟩

/-- Witness for C4 (amended): λ = 5 and K = 0 on the triangle give the
silent identity. -/
theorem no_parameter_validation_witness :
    laplacianSmooth triPts triFacesArr 5 0 = Except.ok triPts :=
  (no_parameter_validation triPts triFacesArr 5 (by decide)).1

/-- C5 counterexample: an input with one vertex and zero faces is not
rejected: the core proceeds and returns a result, signalling no Empty
Input error. -/
theorem empty_input_no_error_cex :
    laplacianSmooth [⟨1, 2, 3⟩] [] (1/2) 5 = Except.ok [⟨1, 2, 3⟩] := by
  with_unfolding_all decide

/-- C5 (amended): empty input is never detected: with zero faces the core
always proceeds and returns the input vertex array unchanged (in particular
with zero vertices it returns the empty array), for every λ and K. -/
theorem empty_input_not_detected (pts : List Vec3) (lambd : ℚ) (K : ℕ) :
    laplacianSmooth pts [] lambd K = Except.ok pts :=
  (laplacianSmooth_ok_iff pts [] lambd K pts).mpr
    ⟨rfl, (smoothIters_nil lambd K pts).symm⟩

/-- C6: λ = 0 is the identity transform — for any mesh whose connectivity
pass succeeds and any iteration count K, the output vertex array equals the
input vertex array exactly. -/
theorem lambda_zero_identity (pts : List Vec3) (fa : List ℕ) (K : ℕ)
    (hok : connectivityOk pts.length (parseFaces fa) = true) :
    laplacianSmooth pts fa 0 K = Except.ok pts :=
  (laplacianSmooth_ok_iff pts fa 0 K pts).mpr
    ⟨hok, (smoothIters_lambda_zero _ K pts).symm⟩

/-- Witness for C6: the tetrahedron with λ = 0 and K = 7 is returned
unchanged. -/
theorem lambda_zero_identity_witness :
    laplacianSmooth tetraPts tetraFacesArr 0 7 = Except.ok tetraPts :=
  lambda_zero_identity tetraPts tetraFacesArr 7 (by decide)

/-- C7: for every successful smoothing run, the output vertex array has the
same length (and index correspondence, by the pointwise construction) as
the input, and the face array of the smoothed mesh is the original face
array unchanged. -/
theorem output_shape_and_faces_unchanged (pts : List Vec3) (fa : List ℕ)
    (lambd : ℚ) (K : ℕ) (out : List Vec3) (fout : List ℕ)
    (h : apply_smoothing pts fa lambd K = Except.ok (out, fout)) :
    out.length = pts.length ∧ fout = fa := by
  unfold apply_smoothing at h
  cases hls : laplacianSmooth pts fa lambd K with
  | error e =>
    rw [hls] at h
    exact absurd h (by simp [Except.map])
  | ok np =>
    rw [hls] at h
    simp only [Except.map] at h
    have hpair := Except.ok.inj h
    obtain ⟨h1, h2⟩ := Prod.mk.injEq np fa out fout ▸ hpair
    subst h1
    subst h2
    obtain ⟨-, rfl⟩ := (laplacianSmooth_ok_iff pts fa lambd K _).mp hls
    exact ⟨length_smoothIters _ lambd K pts, rfl⟩

/-- Witness for C7: the smoothed tetrahedron has 4 vertices and the original
face array. -/
theorem output_shape_and_faces_unchanged_witness :
    ([⟨1/3, 1/3, 1/3⟩, ⟨0, 1/3, 1/3⟩, ⟨1/3, 0, 1/3⟩,
      ⟨1/3, 1/3, 0⟩] : List Vec3).length = tetraPts.length ∧
    tetraFacesArr = tetraFacesArr :=
  output_shape_and_faces_unchanged tetraPts tetraFacesArr 1 1
    [⟨1/3, 1/3, 1/3⟩, ⟨0, 1/3, 1/3⟩, ⟨1/3, 0, 1/3⟩, ⟨1/3, 1/3, 0⟩]
    tetraFacesArr (by with_unfolding_all decide)

/-- C8: with λ = 1 and K = 1 every non-boundary vertex with a non-empty
neighbor set lands exactly on the centroid of its neighbors' original
positions; concretely, each tetrahedron vertex moves to the mean of the
other three. -/
theorem lambda_one_moves_to_centroid :
    (∀ (pts : List Vec3) (faces : List (List ℕ)) (idx : ℕ),
        idx < pts.length → isBoundary faces idx = false →
        nbrs faces idx ≠ [] →
        (smoothIters faces 1 1 pts).getD idx origin =
          vmean ((nbrs faces idx).map fun j => pts.getD j origin)) ∧
    laplacianSmooth tetraPts tetraFacesArr 1 1 =
      Except.ok [⟨1/3, 1/3, 1/3⟩, ⟨0, 1/3, 1/3⟩, ⟨1/3, 0, 1/3⟩,
        ⟨1/3, 1/3, 0⟩] := by
  constructor
  · intro pts faces idx hidx hb hne
    show (smoothIterLoop faces 1 pts).getD idx origin = _
    rw [smoothIterLoop_eq_spec, List.getD_eq_getElem?_getD,
        relaxationStepSpec_getElem?, if_pos hidx]
    have hsk : skipped faces idx = false := by
      unfold skipped
      rw [hb]
      simp [hne]
    rw [if_neg (by simp [hsk])]
    simp only [Option.getD_some]
    exact newPos_lambda_one pts (nbrs faces idx) idx
  · with_unfolding_all decide

/-- Witness for C8: tetrahedron vertex 0 lands on the centroid of its three
neighbors. -/
theorem lambda_one_moves_to_centroid_witness :
    (smoothIters (parseFaces tetraFacesArr) 1 1 tetraPts).getD 0 origin =
      vmean ((nbrs (parseFaces tetraFacesArr) 0).map fun j =>
        tetraPts.getD j origin) :=
  lambda_one_moves_to_centroid.1 tetraPts (parseFaces tetraFacesArr) 0
    (by decide) (by decide) (by decide)

/-- C9 counterexample: the face `[5, 5, 5]` over 3 vertices contains the
out-of-range index 5, yet all its edges are degenerate self-edges, so the
builder skips them and the run succeeds with no invalid-input signal. -/
theorem degenerate_out_of_range_accepted_cex :
    laplacianSmooth triPts [3, 5, 5, 5] (1/2) 1 = Except.ok triPts := by
  with_unfolding_all decide

/-- C9 (amended): the builder always terminates, and it fails — with the
`KeyError` raised while indexing `adj` — exactly when some face yields a
non-degenerate normalized edge with an endpoint outside `[0, N)`; a face
list whose out-of-range indices occur only in degenerate self-edges is
processed silently. -/
theorem keyerror_iff_out_of_range_edge (pts : List Vec3) (fa : List ℕ)
    (lambd : ℚ) (K : ℕ) :
    laplacianSmooth pts fa lambd K = Except.error "KeyError" ↔
      ∃ e ∈ allEdges (parseFaces fa),
        pts.length ≤ e.1 ∨ pts.length ≤ e.2 := by
  simp only [laplacianSmooth]
  by_cases hok : connectivityOk pts.length (parseFaces fa) = true
  · rw [if_pos hok]
    constructor
    · intro h
      exact absurd h (by simp)
    · rintro ⟨e, he, hge⟩
      unfold connectivityOk at hok
      rw [List.all_eq_true] at hok
      have hlt := hok e (by unfold edgeKeys; exact List.mem_dedup.mpr he)
      simp only [Bool.and_eq_true, decide_eq_true_eq] at hlt
      rcases hge with hge | hge
      · omega
      · omega
  · rw [if_neg hok]
    constructor
    · intro _
      have hex : ¬ ∀ e ∈ edgeKeys (parseFaces fa),
          e.1 < pts.length ∧ e.2 < pts.length := by
        intro hall
        apply hok
        unfold connectivityOk
        rw [List.all_eq_true]
        intro e he
        simp only [Bool.and_eq_true, decide_eq_true_eq]
        exact hall e he
      push_neg at hex
      obtain ⟨e, he, hlt⟩ := hex
      refine ⟨e, ?_, ?_⟩
      · unfold edgeKeys at he
        exact List.mem_dedup.mp he
      · omega
    · intro _
      rfl

/-- C10: for λ ∈ [0, 1] and any K, every coordinate of every output vertex
stays inside any axis-aligned box containing all input vertices (so in
particular inside the per-axis min/max interval of the input): each update
is a convex combination of previous-iteration positions, and the bounding
box never grows. -/
theorem bounding_box_never_grows (pts : List Vec3) (fa : List ℕ)
    (lambd : ℚ) (K : ℕ) (lo hi : Vec3) (out : List Vec3)
    (h0 : 0 ≤ lambd) (h1 : lambd ≤ 1)
    (hout : laplacianSmooth pts fa lambd K = Except.ok out)
    (hin : ∀ p ∈ pts, inBox lo hi p) : ∀ p ∈ out, inBox lo hi p := by
  obtain ⟨hok, rfl⟩ := (laplacianSmooth_ok_iff pts fa lambd K out).mp hout
  exact smoothIters_inBox (parseFaces fa) lambd K pts lo hi h0 h1 hok hin

/-- Witness for C10: the tetrahedron lies in the unit box, and so does its
first smoothed vertex at λ = 1/2, K = 1. -/
theorem bounding_box_never_grows_witness :
    inBox origin ⟨1, 1, 1⟩ ⟨1/6, 1/6, 1/6⟩ :=
  bounding_box_never_grows tetraPts tetraFacesArr (1/2) 1 origin ⟨1, 1, 1⟩
    [⟨1/6, 1/6, 1/6⟩, ⟨1/2, 1/6, 1/6⟩, ⟨1/6, 1/2, 1/6⟩, ⟨1/6, 1/6, 1/2⟩]
    (by norm_num) (by norm_num) (by with_unfolding_all decide)
    (by with_unfolding_all decide) ⟨1/6, 1/6, 1/6⟩
    (by with_unfolding_all decide)
